import Mathlib

/-!
Shallow embedding of the quorum decision kernel of the etcd raft library
(package `raft/quorum`): majority and joint configurations, commit-range
computation, vote results, and the describe renderer. Go maps over voter IDs
are modelled as `Finset ℕ`, the `IndexLookuper` capability as `ℕ → Option ℕ`
(`none` meaning "index not known"), and `uint64` values as `ℕ` (the code does
no arithmetic on indexes, only comparisons and the all-ones sentinel, so
overflow cannot occur; where the sentinel matters, theorems carry the bound
`≤ maxUint64` that `uint64` enforces in Go).
-/

namespace EtcdQuorum

/-- `math.MaxUint64`, the sentinel rendered as `∞` by the source. -/
def maxUint64 : ℕ := 2 ^ 64 - 1

/-- `MajorityConfig` (`map[uint64]struct{}`): a set of voter IDs. -/
abbrev MajorityConfig := Finset ℕ

/-- `IndexLookuper`: maps a voter ID to an acked index, or reports unknown. -/
abbrev IndexLookuper := ℕ → Option ℕ

/-- `CommitRange` from `quorum.go`. -/
structure CommitRange where
  Definitely : ℕ
  Maybe : ℕ
  deriving DecidableEq, Repr

/-- Sort a multiset into a non-decreasing list. This models the `sort.Slice`
calls of the source; insertion sort is used so that the definition evaluates
inside the kernel, and the lift is well defined because a sorted permutation
is unique. -/
def sortedListOf {α : Type*} [LinearOrder α] (s : Multiset α) : List α :=
  Quot.liftOn s (fun l => l.insertionSort (· ≤ ·)) fun _ _ h =>
    List.eq_of_perm_of_sorted
      (((List.perm_insertionSort _ _).trans h).trans (List.perm_insertionSort _ _).symm)
      (List.sorted_insertionSort _ _) (List.sorted_insertionSort _ _)

theorem sortedListOf_sorted {α : Type*} [LinearOrder α] (s : Multiset α) :
    (sortedListOf s).Sorted (· ≤ ·) :=
  Quot.inductionOn s fun l => List.sorted_insertionSort _ l

theorem coe_sortedListOf {α : Type*} [LinearOrder α] (s : Multiset α) :
    (sortedListOf s : Multiset α) = s :=
  Quot.inductionOn s fun l => Quot.sound (List.perm_insertionSort _ l)

theorem length_sortedListOf {α : Type*} [LinearOrder α] (s : Multiset α) :
    (sortedListOf s).length = Multiset.card s := by
  have h := congrArg Multiset.card (coe_sortedListOf s)
  simpa using h

/-- The multiset of acked indexes known to `l` for the members of `c`
(the values collected by the fill loop of `CommittedIndex`). -/
def ackedIndexes (c : MajorityConfig) (l : IndexLookuper) : Multiset ℕ :=
  Multiset.filterMap l c.val

/-- The slice `srt` of `(MajorityConfig).CommittedIndex`: the known acked
indexes of members of `c`, left-padded with zeroes (one per voter that has
not reported in yet), sorted non-decreasing. -/
def srtOf (c : MajorityConfig) (l : IndexLookuper) : List ℕ :=
  sortedListOf
    (ackedIndexes c l +
      Multiset.replicate (c.card - Multiset.card (ackedIndexes c l)) 0)

/-- `(MajorityConfig).CommittedIndex` from `majority.go` (the CommitRange
returning version). -/
def MajorityConfig.CommittedIndex (c : MajorityConfig) (l : IndexLookuper) : CommitRange :=
  let n := c.card
  if n = 0 then
    { Definitely := maxUint64, Maybe := maxUint64 }
  else
    let votesCast := Multiset.card (ackedIndexes c l)
    let srt := srtOf c l
    let pos := n - (n / 2 + 1)
    let hi := if pos < votesCast then srt.getD (pos + n - votesCast) 0 else maxUint64
    { Definitely := srt.getD pos 0, Maybe := hi }

/-- The voters of `c` whose index is known to `l` (the domain of the
`idToIdx` map of the alternative implementation). -/
def knownVoters (c : MajorityConfig) (l : IndexLookuper) : Finset ℕ :=
  c.filter fun id => (l id).isSome

/-- `idxToVotes[x]` of the alternative implementation: how many voters of `c`
have acked index `x` or higher. -/
def votesForAtLeast (c : MajorityConfig) (l : IndexLookuper) (x : ℕ) : ℕ :=
  ((knownVoters c l).filter fun id => x ≤ (l id).getD 0).card

/-- `alternativeMajorityCommittedIndex` from `quick_test.go`: the counting
based reference implementation. -/
def alternativeMajorityCommittedIndex (c : MajorityConfig) (l : IndexLookuper) : CommitRange :=
  if c.card = 0 then
    { Definitely := maxUint64, Maybe := maxUint64 }
  else
    let pendingVotes := c.card - (knownVoters c l).card
    let idxs : Finset ℕ := (knownVoters c l).image fun id => (l id).getD 0
    let q := c.card / 2 + 1
    let maxQuorumIdx := (idxs.filter fun x => q ≤ votesForAtLeast c l x).sup id
    let hi :=
      if q ≤ pendingVotes then maxUint64
      else (idxs.filter fun x => q ≤ votesForAtLeast c l x + pendingVotes).sup id
    { Definitely := maxQuorumIdx, Maybe := hi }

/-- The earlier `(MajorityConfig).CommittedIndex` (the `(committedIdx, final)`
returning version). -/
def legacyCommittedIndex (c : MajorityConfig) (l : IndexLookuper) : ℕ × Bool :=
  let n := c.card
  if n = 0 then (0, true)
  else
    let votesCast := Multiset.card (ackedIndexes c l)
    let srt := srtOf c l
    let pos := n - (n / 2 + 1)
    (srt.getD pos 0,
      decide (pos < votesCast) && decide (srt.getD (pos + n - votesCast) 0 = srt.getD pos 0))

/-- `JointConfig` (`[2]MajorityConfig`). -/
abbrev JointConfig := MajorityConfig × MajorityConfig

/-- `(JointConfig).CommittedIndex`: componentwise minimum of the two sides. -/
def JointConfig.CommittedIndex (c : JointConfig) (l : IndexLookuper) : CommitRange :=
  let cr1 := MajorityConfig.CommittedIndex c.1 l
  let cr2 := MajorityConfig.CommittedIndex c.2 l
  { Definitely := min cr1.Definitely cr2.Definitely
    Maybe := min cr1.Maybe cr2.Maybe }

/-- `VoteResult`. The source assigns `VotePending = 1`, `VoteLost = 2`,
`VoteWon = 3`; `val` reproduces those values for the comparison performed by
`(JointConfig).VoteResult`. -/
inductive VoteResult where
  | Pending
  | Lost
  | Won
  deriving DecidableEq, Repr

def VoteResult.val : VoteResult → ℕ
  | .Pending => 1
  | .Lost => 2
  | .Won => 3

/-- The `mapLookuper` built by `voteResultVia`: a yes vote acks index one, a
no vote index zero, voters absent from the map stay unknown. -/
def votesLookuper (votes : ℕ → Option Bool) : IndexLookuper :=
  fun id => (votes id).map fun vote => if vote then 1 else 0

/-- `voteResultVia` from `majority.go`, parameterized by the commit-index
implementation. -/
def voteResultVia (c : MajorityConfig) (votes : ℕ → Option Bool)
    (committedIndex : MajorityConfig → IndexLookuper → CommitRange) : VoteResult :=
  let cr := committedIndex c (votesLookuper votes)
  if cr.Definitely ≠ cr.Maybe then .Pending
  else if cr.Definitely = 1 ∨ c.card = 0 then .Won
  else .Lost

/-- `(MajorityConfig).VoteResult`. -/
def MajorityConfig.VoteResult (c : MajorityConfig) (votes : ℕ → Option Bool) : VoteResult :=
  voteResultVia c votes fun c l => MajorityConfig.CommittedIndex c l

/-- `(JointConfig).VoteResult`, including the symmetry swap of the source. -/
def JointConfig.VoteResult (c : JointConfig) (votes : ℕ → Option Bool) : VoteResult :=
  let r1 := MajorityConfig.VoteResult c.1 votes
  let r2 := MajorityConfig.VoteResult c.2 votes
  if r1 = r2 then r1
  else
    let p := if r2.val < r1.val then (r2, r1) else (r1, r2)
    if p.2 = .Lost then .Lost else p.1

/-- One row of the `(MajorityConfig).Describe` rendering: voter ID, looked-up
index (zero when unknown, as `mapLookuper` returns), whether the index was
found, and the length of the progress bar (the row is printed as `bar` many
`x` characters followed by `>` when `ok`, and as `?` otherwise). -/
structure DescribeRow where
  id : ℕ
  idx : ℕ
  ok : Bool
  bar : ℕ
  deriving DecidableEq, Repr

/-- The `info` slice of `Describe` after its first `sort.Slice` call, which
orders by index ascending with ties broken by ascending ID: the pairs
`(idx, id)` in ascending lexicographic order. -/
def describeKeys (c : MajorityConfig) (l : IndexLookuper) : List (ℕ × ℕ) :=
  (sortedListOf ((c.val.map fun id => toLex ((l id).getD 0, id)) : Multiset (Lex (ℕ × ℕ)))).map
    fun k => ofLex k

/-- The bar-population loop of `Describe`: the row at position `i` of the
first-sorted slice gets bar `i` when its index strictly increased from its
predecessor, and keeps the zero value of `tup.bar` otherwise. -/
def describeBarAt (keys : List (ℕ × ℕ)) (i : ℕ) : ℕ :=
  if 0 < i ∧ (keys.getD (i - 1) (0, 0)).1 < (keys.getD i (0, 0)).1 then i else 0

/-- The rows of `(MajorityConfig).Describe` in print order: bars are assigned
in the first (by-index) order, then the slice is re-sorted by voter ID. -/
def describeRows (c : MajorityConfig) (l : IndexLookuper) : List DescribeRow :=
  let keys := describeKeys c l
  let rowsByIdx := (List.range keys.length).map fun i =>
    let k := keys.getD i (0, 0)
    ({ id := k.2, idx := k.1, ok := (l k.2).isSome, bar := describeBarAt keys i } : DescribeRow)
  rowsByIdx.insertionSort fun r r' => r.id ≤ r'.id

/-- `cAbove M x` counts the elements of `M` that are `≥ x`; used to relate
the sort-based and the counting-based algorithms. -/
def cAbove (M : Multiset ℕ) (x : ℕ) : ℕ :=
  Multiset.countP (fun m => x ≤ m) M

/-! ### Counting characterization of positions in a sorted list -/

theorem le_getD_iff_countP :
    ∀ (s : List ℕ), s.Sorted (· ≤ ·) → ∀ j : ℕ, j < s.length → ∀ x : ℕ,
      (x ≤ s.getD j 0 ↔ s.length - j ≤ s.countP fun m => decide (x ≤ m))
  | [], _, j, hj, _ => absurd hj (by simp)
  | a :: t, hs, 0, _, x => by
    obtain ⟨ha, _⟩ := List.sorted_cons.1 hs
    rw [List.getD_cons_zero]
    constructor
    · intro hxa
      have hall : ∀ m ∈ a :: t, (fun m => decide (x ≤ m)) m = true := by
        intro m hm
        rcases List.mem_cons.1 hm with rfl | hm
        · simpa using hxa
        · simpa using hxa.trans (ha m hm)
      rw [List.countP_eq_length.2 hall]
      omega
    · intro h
      have hlen : (a :: t).countP (fun m => decide (x ≤ m)) = (a :: t).length :=
        le_antisymm (List.countP_le_length _) (by omega)
      simpa using List.countP_eq_length.1 hlen a (by simp)
  | a :: t, hs, j + 1, hj, x => by
    obtain ⟨ha, ht⟩ := List.sorted_cons.1 hs
    have hjt : j < t.length := by simpa using hj
    have ih := le_getD_iff_countP t ht j hjt x
    rw [List.getD_cons_succ, List.countP_cons]
    by_cases hxa : x ≤ a
    · have hmem : t.getD j 0 ∈ t := by
        rw [List.getD_eq_getElem t 0 hjt]
        exact List.getElem_mem hjt
      have h1 : x ≤ t.getD j 0 := hxa.trans (ha _ hmem)
      have h2 : t.countP (fun m => decide (x ≤ m)) = t.length :=
        List.countP_eq_length.2 fun m hm => by simpa using hxa.trans (ha m hm)
      constructor
      · intro _
        rw [h2]
        simp only [List.length_cons]
        omega
      · intro _
        exact h1
    · have hpa : decide (x ≤ a) = false := by simpa using hxa
      simp only [hpa, Bool.false_eq_true, if_false, add_zero, List.length_cons,
        Nat.succ_sub_succ]
      exact ih

/-- The central characterization: for a multiset `M` and a position `j` in its
sorted list, a value `x` is at most the `j`-th entry iff at least
`card M - j` elements of `M` are `≥ x`. -/
theorem le_getD_sortedListOf_iff (M : Multiset ℕ) {j : ℕ} (hj : j < Multiset.card M) (x : ℕ) :
    x ≤ (sortedListOf M).getD j 0 ↔ Multiset.card M - j ≤ cAbove M x := by
  have hlen : (sortedListOf M).length = Multiset.card M := length_sortedListOf M
  have h := le_getD_iff_countP (sortedListOf M) (sortedListOf_sorted M) j (by omega) x
  rw [hlen] at h
  rw [h, cAbove]
  have : Multiset.countP (fun m => x ≤ m) M
      = (sortedListOf M).countP fun m => decide (x ≤ m) := by
    conv_lhs => rw [← coe_sortedListOf M]
    rfl
  rw [this]

/-! ### Relating the lookup, the known voters and the acked indexes -/

theorem card_filterMap_eq_card_filter (l : IndexLookuper) (s : Multiset ℕ) :
    Multiset.card (Multiset.filterMap l s)
      = Multiset.card (s.filter fun id => (l id).isSome = true) := by
  induction s using Multiset.induction_on with
  | empty => rfl
  | cons a s ih =>
    cases hla : l a with
    | none =>
      rw [Multiset.filterMap_cons_none a s hla,
        Multiset.filter_cons_of_neg _ (by simp [hla]), ih]
    | some v =>
      rw [Multiset.filterMap_cons_some l a s hla,
        Multiset.filter_cons_of_pos _ (by simp [hla])]
      simp [ih]

theorem countP_filterMap (l : IndexLookuper) (x : ℕ) (s : Multiset ℕ) :
    Multiset.countP (fun m => x ≤ m) (Multiset.filterMap l s)
      = Multiset.card (s.filter fun id => (l id).isSome = true ∧ x ≤ (l id).getD 0) := by
  induction s using Multiset.induction_on with
  | empty => rfl
  | cons a s ih =>
    cases hla : l a with
    | none =>
      rw [Multiset.filterMap_cons_none a s hla,
        Multiset.filter_cons_of_neg _ (by simp [hla]), ih]
    | some v =>
      rw [Multiset.filterMap_cons_some l a s hla]
      by_cases hxv : x ≤ v
      · rw [Multiset.countP_cons_of_pos _ hxv,
          Multiset.filter_cons_of_pos _ (by simp [hla, hxv])]
        simp [ih]
      · rw [Multiset.countP_cons_of_neg _ hxv,
          Multiset.filter_cons_of_neg _ (by simp [hla, hxv]), ih]

theorem votesForAtLeast_eq (c : MajorityConfig) (l : IndexLookuper) (x : ℕ) :
    votesForAtLeast c l x = cAbove (ackedIndexes c l) x := by
  rw [votesForAtLeast, cAbove, ackedIndexes, countP_filterMap, knownVoters,
    Finset.filter_filter]
  rfl

theorem card_ackedIndexes (c : MajorityConfig) (l : IndexLookuper) :
    Multiset.card (ackedIndexes c l) = (knownVoters c l).card := by
  rw [ackedIndexes, card_filterMap_eq_card_filter, knownVoters]
  rfl

theorem votesCast_le_card (c : MajorityConfig) (l : IndexLookuper) :
    Multiset.card (ackedIndexes c l) ≤ c.card := by
  rw [card_ackedIndexes, knownVoters]
  exact Finset.card_filter_le _ _

theorem mem_ackedIndexes {c : MajorityConfig} {l : IndexLookuper} {v : ℕ} :
    v ∈ ackedIndexes c l ↔ ∃ id ∈ c, l id = some v := by
  rw [ackedIndexes, Multiset.mem_filterMap]
  constructor
  · rintro ⟨a, ha, hfa⟩
    exact ⟨a, Finset.mem_def.2 ha, hfa⟩
  · rintro ⟨a, ha, hfa⟩
    exact ⟨a, Finset.mem_def.1 ha, hfa⟩

theorem mem_image_of_mem_acked {c : MajorityConfig} {l : IndexLookuper} {v : ℕ}
    (h : v ∈ ackedIndexes c l) :
    v ∈ (knownVoters c l).image fun id => (l id).getD 0 := by
  obtain ⟨id, hid, hlv⟩ := mem_ackedIndexes.1 h
  exact Finset.mem_image.2
    ⟨id, Finset.mem_filter.2 ⟨hid, by simp [hlv]⟩, by simp [hlv]⟩

/-! ### The padded multiset behind `srtOf` -/

theorem card_padded (c : MajorityConfig) (l : IndexLookuper) :
    Multiset.card
      (ackedIndexes c l +
        Multiset.replicate (c.card - Multiset.card (ackedIndexes c l)) 0) = c.card := by
  have h := votesCast_le_card c l
  simp only [Multiset.card_add, Multiset.card_replicate]
  omega

theorem length_srtOf (c : MajorityConfig) (l : IndexLookuper) :
    (srtOf c l).length = c.card := by
  rw [srtOf, length_sortedListOf, card_padded]

theorem cAbove_add_replicate_zero_of_pos (A : Multiset ℕ) (m : ℕ) {x : ℕ} (hx : 0 < x) :
    cAbove (A + Multiset.replicate m 0) x = cAbove A x := by
  rw [cAbove, cAbove, Multiset.countP_add]
  have h0 : Multiset.countP (fun y => x ≤ y) (Multiset.replicate m 0) = 0 := by
    refine Multiset.countP_eq_zero.2 fun a ha => ?_
    rw [Multiset.eq_of_mem_replicate ha]
    omega
  omega

theorem cAbove_le_of_le {A B : Multiset ℕ} (h : A ≤ B) (x : ℕ) :
    cAbove A x ≤ cAbove B x :=
  Multiset.countP_le_of_le _ h

theorem cAbove_le_card (A : Multiset ℕ) (x : ℕ) : cAbove A x ≤ Multiset.card A :=
  Multiset.countP_le_card _ A

theorem mem_padded_cases {c : MajorityConfig} {l : IndexLookuper} {v : ℕ} (hv :
    v ∈ ackedIndexes c l +
      Multiset.replicate (c.card - Multiset.card (ackedIndexes c l)) 0) :
    v ∈ ackedIndexes c l ∨ v = 0 := by
  rcases Multiset.mem_add.1 hv with h | h
  · exact Or.inl h
  · exact Or.inr (Multiset.eq_of_mem_replicate h)

theorem getD_srtOf_mem {c : MajorityConfig} {l : IndexLookuper} {j : ℕ}
    (hj : j < c.card) :
    (srtOf c l).getD j 0 ∈
      ackedIndexes c l +
        Multiset.replicate (c.card - Multiset.card (ackedIndexes c l)) 0 := by
  have hjl : j < (srtOf c l).length := by rw [length_srtOf]; exact hj
  have hmem : (srtOf c l).getD j 0 ∈ srtOf c l := by
    rw [List.getD_eq_getElem _ 0 hjl]
    exact List.getElem_mem hjl
  rw [← Multiset.mem_coe, srtOf, coe_sortedListOf] at hmem
  exact hmem

theorem getD_srtOf_le_maxUint64 (c : MajorityConfig) (l : IndexLookuper)
    (hb : ∀ id v, l id = some v → v ≤ maxUint64) (j : ℕ) :
    (srtOf c l).getD j 0 ≤ maxUint64 := by
  by_cases hj : j < c.card
  · rcases mem_padded_cases (getD_srtOf_mem (c := c) (l := l) hj) with h | h
    · obtain ⟨id, _, hlv⟩ := mem_ackedIndexes.1 h
      exact hb id _ hlv
    · rw [h]
      exact Nat.zero_le _
  · rw [List.getD_eq_default]
    · exact Nat.zero_le _
    · rw [length_srtOf]
      omega

theorem le_sup_id {s : Finset ℕ} {b : ℕ} (hb : b ∈ s) : b ≤ s.sup id :=
  show id b ≤ s.sup id from Finset.le_sup hb

/-- The `j`-th entry of the sorted padded slice equals the largest acked index
`x` such that at least `c.card - j` voters acked `x` or higher (`0` when no
acked index qualifies). This is the bridge between the sort-based primary
algorithm and the counting-based reference. -/
theorem getD_srtOf_eq_sup (c : MajorityConfig) (l : IndexLookuper) {j : ℕ}
    (hj : j < c.card) :
    (srtOf c l).getD j 0
      = (((knownVoters c l).image fun id => (l id).getD 0).filter
          fun x => c.card - j ≤ cAbove (ackedIndexes c l) x).sup id := by
  have hcard : Multiset.card
      (ackedIndexes c l +
        Multiset.replicate (c.card - Multiset.card (ackedIndexes c l)) 0) = c.card :=
    card_padded c l
  have hj' : j < Multiset.card
      (ackedIndexes c l +
        Multiset.replicate (c.card - Multiset.card (ackedIndexes c l)) 0) := by
    rw [hcard]; exact hj
  have hiff := le_getD_sortedListOf_iff _ hj'
  rw [hcard] at hiff
  have hsrt : srtOf c l = sortedListOf
      (ackedIndexes c l +
        Multiset.replicate (c.card - Multiset.card (ackedIndexes c l)) 0) := rfl
  apply le_antisymm
  · rcases Nat.eq_zero_or_pos ((srtOf c l).getD j 0) with h0 | hpos
    · rw [h0]
      exact Nat.zero_le _
    · have hvmem := getD_srtOf_mem (c := c) (l := l) hj
      have hvA : (srtOf c l).getD j 0 ∈ ackedIndexes c l := by
        rcases mem_padded_cases hvmem with h | h
        · exact h
        · omega
      have hcnt : c.card - j ≤ cAbove
          (ackedIndexes c l +
            Multiset.replicate (c.card - Multiset.card (ackedIndexes c l)) 0)
          ((srtOf c l).getD j 0) := by
        refine (hiff _).1 ?_
        rw [← hsrt]
      have hcntA : c.card - j ≤ cAbove (ackedIndexes c l) ((srtOf c l).getD j 0) := by
        rwa [cAbove_add_replicate_zero_of_pos _ _ hpos] at hcnt
      have hmemf : (srtOf c l).getD j 0
          ∈ ((knownVoters c l).image fun id => (l id).getD 0).filter
            fun x => c.card - j ≤ cAbove (ackedIndexes c l) x :=
        Finset.mem_filter.2 ⟨mem_image_of_mem_acked hvA, hcntA⟩
      exact le_sup_id hmemf
  · refine Finset.sup_le fun x hx => ?_
    obtain ⟨hximg, hxcnt⟩ := Finset.mem_filter.1 hx
    rcases Nat.eq_zero_or_pos x with rfl | hxpos
    · exact Nat.zero_le _
    · rw [hsrt]
      refine (hiff x).2 ?_
      refine le_trans hxcnt (cAbove_le_of_le ?_ x)
      exact Multiset.le_add_right _ _

theorem definitely_eq_sup (c : MajorityConfig) (l : IndexLookuper) (hn : 0 < c.card) :
    (srtOf c l).getD (c.card - (c.card / 2 + 1)) 0
      = (((knownVoters c l).image fun id => (l id).getD 0).filter
          fun x => c.card / 2 + 1 ≤ votesForAtLeast c l x).sup id := by
  have hpos : c.card - (c.card / 2 + 1) < c.card := by omega
  rw [getD_srtOf_eq_sup c l hpos]
  congr 1
  refine Finset.filter_congr fun x _ => ?_
  rw [votesForAtLeast_eq]
  omega

theorem maybe_eq_sup (c : MajorityConfig) (l : IndexLookuper)
    (hlt : c.card - (c.card / 2 + 1) < Multiset.card (ackedIndexes c l)) :
    (srtOf c l).getD (c.card - (c.card / 2 + 1) + c.card - Multiset.card (ackedIndexes c l)) 0
      = (((knownVoters c l).image fun id => (l id).getD 0).filter
          fun x => c.card / 2 + 1
            ≤ votesForAtLeast c l x + (c.card - (knownVoters c l).card)).sup id := by
  have hk := votesCast_le_card c l
  have hj : c.card - (c.card / 2 + 1) + c.card - Multiset.card (ackedIndexes c l) < c.card := by
    omega
  rw [getD_srtOf_eq_sup c l hj]
  congr 1
  refine Finset.filter_congr fun x _ => ?_
  rw [votesForAtLeast_eq, ← card_ackedIndexes]
  omega

/-- C1: for every `MajorityConfig` and every `IndexLookuper`, the sort-based
`CommittedIndex` and the counting-based `alternativeMajorityCommittedIndex`
return equal `CommitRange` values (equal `Definitely` and equal `Maybe`). -/
theorem committedIndex_eq_alternative (c : MajorityConfig) (l : IndexLookuper) :
    MajorityConfig.CommittedIndex c l = alternativeMajorityCommittedIndex c l := by
  rcases Nat.eq_zero_or_pos c.card with hn | hn
  · simp [MajorityConfig.CommittedIndex, alternativeMajorityCommittedIndex, hn]
  · have hne : ¬ c.card = 0 := by omega
    have hk := votesCast_le_card c l
    simp only [MajorityConfig.CommittedIndex, alternativeMajorityCommittedIndex, if_neg hne]
    by_cases hc : c.card - (c.card / 2 + 1) < Multiset.card (ackedIndexes c l)
    · rw [if_pos hc, if_neg (show ¬ c.card / 2 + 1 ≤ c.card - (knownVoters c l).card by
        rw [← card_ackedIndexes]; omega)]
      rw [CommitRange.mk.injEq]
      exact ⟨definitely_eq_sup c l hn, maybe_eq_sup c l hc⟩
    · rw [if_neg hc, if_pos (show c.card / 2 + 1 ≤ c.card - (knownVoters c l).card by
        rw [← card_ackedIndexes]; omega)]
      rw [CommitRange.mk.injEq]
      exact ⟨definitely_eq_sup c l hn, rfl⟩

theorem getD_sortedListOf_mono (M : Multiset ℕ) {i j : ℕ} (hij : i ≤ j)
    (hj : j < Multiset.card M) :
    (sortedListOf M).getD i 0 ≤ (sortedListOf M).getD j 0 := by
  have hi : i < Multiset.card M := by omega
  have h1 := (le_getD_sortedListOf_iff M hi ((sortedListOf M).getD i 0)).1 (le_refl _)
  exact (le_getD_sortedListOf_iff M hj _).2 (by omega)

/-- C2: for every config (majority or joint) and every lookuper with `uint64`
valued indexes, the `CommitRange` returned by `CommittedIndex` satisfies
`Definitely ≤ Maybe`. -/
theorem committedIndex_definitely_le_maybe (l : IndexLookuper)
    (hb : ∀ id v, l id = some v → v ≤ maxUint64) :
    (∀ c : MajorityConfig,
      (MajorityConfig.CommittedIndex c l).Definitely
        ≤ (MajorityConfig.CommittedIndex c l).Maybe)
    ∧ ∀ jc : JointConfig,
      (JointConfig.CommittedIndex jc l).Definitely
        ≤ (JointConfig.CommittedIndex jc l).Maybe := by
  have hmaj : ∀ c : MajorityConfig,
      (MajorityConfig.CommittedIndex c l).Definitely
        ≤ (MajorityConfig.CommittedIndex c l).Maybe := by
    intro c
    rcases Nat.eq_zero_or_pos c.card with hn | hn
    · simp [MajorityConfig.CommittedIndex, hn]
    · have hne : ¬ c.card = 0 := by omega
      have hk := votesCast_le_card c l
      simp only [MajorityConfig.CommittedIndex, if_neg hne]
      by_cases hc : c.card - (c.card / 2 + 1) < Multiset.card (ackedIndexes c l)
      · rw [if_pos hc]
        have hjlt : c.card - (c.card / 2 + 1) + c.card - Multiset.card (ackedIndexes c l)
            < Multiset.card
              (ackedIndexes c l +
                Multiset.replicate (c.card - Multiset.card (ackedIndexes c l)) 0) := by
          rw [card_padded]
          omega
        exact getD_sortedListOf_mono _ (by omega) hjlt
      · rw [if_neg hc]
        exact getD_srtOf_le_maxUint64 c l hb _
  refine ⟨hmaj, fun jc => ?_⟩
  exact min_le_min (hmaj jc.1) (hmaj jc.2)

theorem committedIndex_definitely_le_maybe_witness :
    (MajorityConfig.CommittedIndex {1, 2, 3}
        fun id => if id = 1 then some 5 else none).Definitely
      ≤ (MajorityConfig.CommittedIndex {1, 2, 3}
          fun id => if id = 1 then some 5 else none).Maybe :=
  (committedIndex_definitely_le_maybe (fun id => if id = 1 then some 5 else none)
    (by
      intro id v h
      dsimp only at h
      by_cases hid : id = 1
      · rw [if_pos hid] at h
        have hv : v = 5 := by simpa using h.symm
        rw [hv]
        decide
      · rw [if_neg hid] at h
        exact absurd h (by simp))).1 {1, 2, 3}

theorem filterMap_congr_mem {f g : ℕ → Option ℕ} (s : Multiset ℕ)
    (h : ∀ x ∈ s, f x = g x) : Multiset.filterMap f s = Multiset.filterMap g s := by
  induction s using Multiset.induction_on with
  | empty => rfl
  | cons a t ih =>
    have ha := h a (Multiset.mem_cons_self a t)
    have ht : ∀ x ∈ t, f x = g x := fun x hx => h x (Multiset.mem_cons_of_mem hx)
    cases hg : g a with
    | none =>
      rw [Multiset.filterMap_cons_none a t (ha.trans hg),
        Multiset.filterMap_cons_none a t hg, ih ht]
    | some v =>
      rw [Multiset.filterMap_cons_some f a t (ha.trans hg),
        Multiset.filterMap_cons_some g a t hg, ih ht]

theorem ackedIndexes_update (c : MajorityConfig) (l : IndexLookuper) {v0 k : ℕ}
    (hv0 : v0 ∈ c) (hunk : l v0 = none) :
    ackedIndexes c (fun id => if id = v0 then some k else l id)
      = k ::ₘ ackedIndexes c l := by
  have hc : v0 ::ₘ c.val.erase v0 = c.val := Multiset.cons_erase (Finset.mem_def.1 hv0)
  have hrest : ∀ x ∈ c.val.erase v0,
      (fun id => if id = v0 then some k else l id) x = l x := by
    intro x hx
    have hne : x ≠ v0 := by
      intro heq
      subst heq
      exact c.nodup.not_mem_erase hx
    dsimp only
    rw [if_neg hne]
  rw [ackedIndexes, ackedIndexes, ← hc,
    Multiset.filterMap_cons_some _ v0 _
      (show (if v0 = v0 then some k else l v0) = some k by rw [if_pos rfl]),
    Multiset.filterMap_cons_none v0 _ hunk, filterMap_congr_mem _ hrest]

theorem cAbove_add_replicate_zero (A : Multiset ℕ) (m x : ℕ) :
    cAbove (A + Multiset.replicate m 0) x = cAbove A x + if x = 0 then m else 0 := by
  rw [cAbove, Multiset.countP_add, ← cAbove]
  congr 1
  rcases Nat.eq_zero_or_pos x with rfl | hx
  · rw [if_pos rfl]
    refine (Multiset.countP_eq_card.2 fun a _ => Nat.zero_le a).trans ?_
    exact Multiset.card_replicate m 0
  · rw [if_neg (by omega)]
    refine Multiset.countP_eq_zero.2 fun a ha => ?_
    rw [Multiset.eq_of_mem_replicate ha]
    omega

theorem cAbove_cons (a : ℕ) (A : Multiset ℕ) (x : ℕ) :
    cAbove (a ::ₘ A) x = cAbove A x + if x ≤ a then 1 else 0 :=
  Multiset.countP_cons _ a A

theorem getD_sortedListOf_le_of_cAbove_le {M M' : Multiset ℕ}
    (hcard : Multiset.card M = Multiset.card M')
    (hc : ∀ x, cAbove M x ≤ cAbove M' x) {j : ℕ} (hj : j < Multiset.card M) :
    (sortedListOf M).getD j 0 ≤ (sortedListOf M').getD j 0 := by
  have h1 := (le_getD_sortedListOf_iff M hj ((sortedListOf M).getD j 0)).1 (le_refl _)
  refine (le_getD_sortedListOf_iff M' (by omega) _).2 ?_
  have h2 := hc ((sortedListOf M).getD j 0)
  omega

theorem getD_sortedListOf_pred_le {M M' : Multiset ℕ}
    (hcard : Multiset.card M = Multiset.card M')
    (hc : ∀ x, cAbove M' x ≤ cAbove M x + 1) {j : ℕ} (hj : j < Multiset.card M)
    (hj1 : 1 ≤ j) :
    (sortedListOf M').getD (j - 1) 0 ≤ (sortedListOf M).getD j 0 := by
  have hj' : j - 1 < Multiset.card M' := by omega
  have h1 := (le_getD_sortedListOf_iff M' hj'
    ((sortedListOf M').getD (j - 1) 0)).1 (le_refl _)
  refine (le_getD_sortedListOf_iff M hj _).2 ?_
  have h2 := hc ((sortedListOf M').getD (j - 1) 0)
  omega

/-- C3: if `l'` extends `l` by one newly known ack `k` (a `uint64` value) for
a voter of `c` unknown in `l`, then `Definitely` does not decrease and
`Maybe` does not increase. -/
theorem committedIndex_monotone_knowledge (c : MajorityConfig) (l l' : IndexLookuper)
    (v0 k : ℕ) (hv0 : v0 ∈ c) (hunk : l v0 = none)
    (hl' : l' = fun id => if id = v0 then some k else l id)
    (hb : ∀ id v, l id = some v → v ≤ maxUint64) (hkb : k ≤ maxUint64) :
    (MajorityConfig.CommittedIndex c l).Definitely
        ≤ (MajorityConfig.CommittedIndex c l').Definitely
      ∧ (MajorityConfig.CommittedIndex c l').Maybe
        ≤ (MajorityConfig.CommittedIndex c l).Maybe := by
  have hne : ¬ c.card = 0 := by
    have h := Finset.card_pos.2 ⟨v0, hv0⟩
    omega
  have hb' : ∀ id v, l' id = some v → v ≤ maxUint64 := by
    intro id v h
    rw [hl'] at h
    dsimp only at h
    by_cases hid : id = v0
    · rw [if_pos hid] at h
      injection h with h
      omega
    · rw [if_neg hid] at h
      exact hb id v h
  have hA' : ackedIndexes c l' = k ::ₘ ackedIndexes c l := by
    rw [hl']
    exact ackedIndexes_update c l hv0 hunk
  have hvc_lt : Multiset.card (ackedIndexes c l) < c.card := by
    rw [card_ackedIndexes]
    refine Finset.card_lt_card (Finset.filter_ssubset.2 ⟨v0, hv0, ?_⟩)
    simp [hunk]
  have hvc' : Multiset.card (ackedIndexes c l')
      = Multiset.card (ackedIndexes c l) + 1 := by
    rw [hA', Multiset.card_cons]
  have hcardM : Multiset.card (ackedIndexes c l +
      Multiset.replicate (c.card - Multiset.card (ackedIndexes c l)) 0) = c.card :=
    card_padded c l
  have hcardM' : Multiset.card (ackedIndexes c l' +
      Multiset.replicate (c.card - Multiset.card (ackedIndexes c l')) 0) = c.card :=
    card_padded c l'
  have hcab1 : ∀ x, cAbove (ackedIndexes c l +
      Multiset.replicate (c.card - Multiset.card (ackedIndexes c l)) 0) x
      ≤ cAbove (ackedIndexes c l' +
        Multiset.replicate (c.card - Multiset.card (ackedIndexes c l')) 0) x := by
    intro x
    rw [cAbove_add_replicate_zero, cAbove_add_replicate_zero, hvc', hA', cAbove_cons]
    by_cases hx0 : x = 0
    · subst hx0
      rw [if_pos rfl, if_pos rfl, if_pos (Nat.zero_le k)]
      omega
    · rw [if_neg hx0, if_neg hx0]
      by_cases hxk : x ≤ k <;> simp [hxk]
  have hcab2 : ∀ x, cAbove (ackedIndexes c l' +
      Multiset.replicate (c.card - Multiset.card (ackedIndexes c l')) 0) x
      ≤ cAbove (ackedIndexes c l +
        Multiset.replicate (c.card - Multiset.card (ackedIndexes c l)) 0) x + 1 := by
    intro x
    rw [cAbove_add_replicate_zero, cAbove_add_replicate_zero, hvc', hA', cAbove_cons]
    by_cases hx0 : x = 0
    · subst hx0
      rw [if_pos rfl, if_pos rfl, if_pos (Nat.zero_le k)]
      omega
    · rw [if_neg hx0, if_neg hx0]
      by_cases hxk : x ≤ k <;> simp [hxk]
  simp only [MajorityConfig.CommittedIndex, if_neg hne]
  constructor
  · exact getD_sortedListOf_le_of_cAbove_le (hcardM.trans hcardM'.symm) hcab1
      (by rw [hcardM]; omega)
  · rw [hvc']
    by_cases h1 : c.card - (c.card / 2 + 1) < Multiset.card (ackedIndexes c l)
    · rw [if_pos (show c.card - (c.card / 2 + 1)
          < Multiset.card (ackedIndexes c l) + 1 by omega), if_pos h1]
      have hidx : c.card - (c.card / 2 + 1) + c.card - (Multiset.card (ackedIndexes c l) + 1)
          = c.card - (c.card / 2 + 1) + c.card - Multiset.card (ackedIndexes c l) - 1 := by
        omega
      rw [hidx]
      refine getD_sortedListOf_pred_le (hcardM.trans hcardM'.symm) hcab2 ?_ ?_
      · rw [hcardM]
        omega
      · omega
    · by_cases h2 : c.card - (c.card / 2 + 1) < Multiset.card (ackedIndexes c l) + 1
      · rw [if_pos h2, if_neg h1]
        exact getD_srtOf_le_maxUint64 c l' hb' _
      · rw [if_neg h2, if_neg h1]

theorem committedIndex_monotone_knowledge_witness :
    (MajorityConfig.CommittedIndex {1, 2, 3}
        fun id => if id = 1 then some 7 else none).Definitely
      ≤ (MajorityConfig.CommittedIndex {1, 2, 3}
          fun id => if id = 2 then some 9 else if id = 1 then some 7 else none).Definitely
    ∧ (MajorityConfig.CommittedIndex {1, 2, 3}
        fun id => if id = 2 then some 9 else if id = 1 then some 7 else none).Maybe
      ≤ (MajorityConfig.CommittedIndex {1, 2, 3}
          fun id => if id = 1 then some 7 else none).Maybe :=
  committedIndex_monotone_knowledge {1, 2, 3}
    (fun id => if id = 1 then some 7 else none)
    (fun id => if id = 2 then some 9 else if id = 1 then some 7 else none)
    2 9 (by decide) (by rfl) rfl
    (by
      intro id v h
      dsimp only at h
      by_cases hid : id = 1
      · rw [if_pos hid] at h
        injection h with h
        subst h
        decide
      · rw [if_neg hid] at h
        exact absurd h (by simp))
    (by decide)

/-- C4: when every voter of `c` has a known ack in `l`, the commit range is
final: `Definitely = Maybe`. -/
theorem committedIndex_final_of_full_knowledge (c : MajorityConfig) (l : IndexLookuper)
    (hfull : ∀ id ∈ c, (l id).isSome = true) :
    (MajorityConfig.CommittedIndex c l).Definitely
      = (MajorityConfig.CommittedIndex c l).Maybe := by
  rcases Nat.eq_zero_or_pos c.card with hn | hn
  · simp [MajorityConfig.CommittedIndex, hn]
  · have hne : ¬ c.card = 0 := by omega
    have hvc : Multiset.card (ackedIndexes c l) = c.card := by
      rw [card_ackedIndexes, knownVoters, Finset.filter_true_of_mem hfull]
    simp only [MajorityConfig.CommittedIndex, if_neg hne]
    rw [hvc, if_pos (by omega),
      show c.card - (c.card / 2 + 1) + c.card - c.card = c.card - (c.card / 2 + 1) by omega]

theorem committedIndex_final_of_full_knowledge_witness :
    (MajorityConfig.CommittedIndex {1, 2} fun _ => some 3).Definitely
      = (MajorityConfig.CommittedIndex {1, 2} fun _ => some 3).Maybe :=
  committedIndex_final_of_full_knowledge {1, 2} (fun _ => some 3) (by decide)

theorem sortedListOf_replicate_zero (n : ℕ) :
    sortedListOf (Multiset.replicate n 0) = List.replicate n 0 := by
  have hperm : (sortedListOf (Multiset.replicate n 0) : Multiset ℕ)
      = Multiset.replicate n 0 := coe_sortedListOf _
  rwa [← Multiset.coe_replicate, Multiset.coe_eq_coe, List.perm_replicate] at hperm

theorem getD_replicate_zero (n j : ℕ) : (List.replicate n 0).getD j 0 = 0 := by
  rcases lt_or_ge j n with h | h
  · rw [List.getD_eq_getElem _ _ (by simpa using h)]
    exact List.getElem_replicate 0 _
  · rw [List.getD_eq_default _ _ (by simpa using h)]

theorem filterMap_eq_zero_of_none (l : IndexLookuper) (s : Multiset ℕ)
    (h : ∀ x ∈ s, l x = none) : Multiset.filterMap l s = 0 := by
  induction s using Multiset.induction_on with
  | empty => rfl
  | cons a t ih =>
    rw [Multiset.filterMap_cons_none a t (h a (Multiset.mem_cons_self a t))]
    exact ih fun x hx => h x (Multiset.mem_cons_of_mem hx)

/-- C5: a lookuper that reports unknown for every voter of `c` yields
`(0, 2^64-1)` when `c` is nonempty and `(2^64-1, 2^64-1)` when `c` is
empty. -/
theorem committedIndex_all_unknown (c : MajorityConfig) (l : IndexLookuper)
    (hunk : ∀ id ∈ c, l id = none) :
    MajorityConfig.CommittedIndex c l
      = if c.card = 0 then { Definitely := 2 ^ 64 - 1, Maybe := 2 ^ 64 - 1 }
        else { Definitely := 0, Maybe := 2 ^ 64 - 1 } := by
  have hA : ackedIndexes c l = 0 :=
    filterMap_eq_zero_of_none l c.val fun x hx => hunk x (Finset.mem_def.2 hx)
  rcases Nat.eq_zero_or_pos c.card with hn | hn
  · rw [if_pos hn]
    simp [MajorityConfig.CommittedIndex, hn, maxUint64]
  · have hne : ¬ c.card = 0 := by omega
    rw [if_neg hne]
    simp only [MajorityConfig.CommittedIndex, if_neg hne]
    have hsrt : srtOf c l = List.replicate c.card 0 := by
      rw [srtOf, hA]
      simp only [Multiset.card_zero, Nat.sub_zero, zero_add]
      exact sortedListOf_replicate_zero c.card
    rw [hA, hsrt]
    simp only [Multiset.card_zero, Nat.not_lt_zero, if_false, getD_replicate_zero]
    rw [CommitRange.mk.injEq]
    exact ⟨rfl, rfl⟩

theorem committedIndex_all_unknown_witness :
    MajorityConfig.CommittedIndex {1} (fun _ => none)
      = if Finset.card {1} = 0 then { Definitely := 2 ^ 64 - 1, Maybe := 2 ^ 64 - 1 }
        else { Definitely := 0, Maybe := 2 ^ 64 - 1 } :=
  committedIndex_all_unknown {1} (fun _ => none) (by decide)

theorem commitRange_ext {a b : CommitRange} (h1 : a.Definitely = b.Definitely)
    (h2 : a.Maybe = b.Maybe) : a = b := by
  cases a
  cases b
  cases h1
  cases h2
  rfl

theorem committedIndex_le_maxUint64 (c : MajorityConfig) (l : IndexLookuper)
    (hb : ∀ id v, l id = some v → v ≤ maxUint64) :
    (MajorityConfig.CommittedIndex c l).Definitely ≤ maxUint64
      ∧ (MajorityConfig.CommittedIndex c l).Maybe ≤ maxUint64 := by
  rcases Nat.eq_zero_or_pos c.card with hn | hn
  · simp [MajorityConfig.CommittedIndex, hn]
  · have hne : ¬ c.card = 0 := by omega
    simp only [MajorityConfig.CommittedIndex, if_neg hne]
    refine ⟨getD_srtOf_le_maxUint64 c l hb _, ?_⟩
    by_cases hc : c.card - (c.card / 2 + 1) < Multiset.card (ackedIndexes c l)
    · rw [if_pos hc]
      exact getD_srtOf_le_maxUint64 c l hb _
    · rw [if_neg hc]

/-- C6: a joint config whose first side is empty has the commit range of its
second side: the empty side is neutral for the joint composition. -/
theorem jointCommittedIndex_empty_left (B : MajorityConfig) (l : IndexLookuper)
    (hb : ∀ id v, l id = some v → v ≤ maxUint64) :
    JointConfig.CommittedIndex (∅, B) l = MajorityConfig.CommittedIndex B l := by
  have hbd := committedIndex_le_maxUint64 B l hb
  have h1 : MajorityConfig.CommittedIndex (∅ : MajorityConfig) l
      = { Definitely := maxUint64, Maybe := maxUint64 } := by
    simp [MajorityConfig.CommittedIndex]
  refine commitRange_ext ?_ ?_
  · show min (MajorityConfig.CommittedIndex (∅ : MajorityConfig) l).Definitely
        (MajorityConfig.CommittedIndex B l).Definitely = _
    rw [h1]
    exact min_eq_right hbd.1
  · show min (MajorityConfig.CommittedIndex (∅ : MajorityConfig) l).Maybe
        (MajorityConfig.CommittedIndex B l).Maybe = _
    rw [h1]
    exact min_eq_right hbd.2

theorem jointCommittedIndex_empty_left_witness :
    JointConfig.CommittedIndex (∅, {1}) (fun _ => some 4)
      = MajorityConfig.CommittedIndex {1} (fun _ => some 4) :=
  jointCommittedIndex_empty_left {1} (fun _ => some 4)
    (by
      intro id v h
      injection h with h
      subst h
      decide)

/-- C7: a majority vote equals the stated mapping of the commit range
computed from the lookuper that acks 1 for yes voters, 0 for no voters, and
is unknown elsewhere; the empty config wins every vote. -/
theorem voteResult_eq_commit_mapping (c : MajorityConfig) (votes : ℕ → Option Bool) :
    MajorityConfig.VoteResult c votes
      = (let cr := MajorityConfig.CommittedIndex c fun id =>
          match votes id with
          | some true => some 1
          | some false => some 0
          | none => none
         if cr.Definitely ≠ cr.Maybe then VoteResult.Pending
         else if cr.Definitely = 1 ∨ c.card = 0 then VoteResult.Won
         else VoteResult.Lost) := by
  have hl : (fun id =>
      match votes id with
      | some true => some 1
      | some false => some 0
      | none => (none : Option ℕ)) = votesLookuper votes := by
    funext id
    rw [votesLookuper]
    cases votes id with
    | none => rfl
    | some b => cases b <;> rfl
  rw [hl]
  rfl

/-- C8: the joint vote result is the common value when both sides agree, Lost
when either side is Lost, and Pending otherwise. -/
theorem jointVoteResult_characterization (A B : MajorityConfig)
    (votes : ℕ → Option Bool) :
    JointConfig.VoteResult (A, B) votes
      = (if MajorityConfig.VoteResult A votes = MajorityConfig.VoteResult B votes
          then MajorityConfig.VoteResult A votes
          else if MajorityConfig.VoteResult A votes = VoteResult.Lost
              ∨ MajorityConfig.VoteResult B votes = VoteResult.Lost
            then VoteResult.Lost
            else VoteResult.Pending) := by
  show (let r1 := MajorityConfig.VoteResult A votes
        let r2 := MajorityConfig.VoteResult B votes
        if r1 = r2 then r1
        else
          let p := if r2.val < r1.val then (r2, r1) else (r1, r2)
          if p.2 = .Lost then .Lost else p.1) = _
  generalize MajorityConfig.VoteResult A votes = r1
  generalize MajorityConfig.VoteResult B votes = r2
  cases r1 <;> cases r2 <;> rfl

/-- C9 (code bug): on the config `{1,2,3}` with acks `1 ↦ 3`, `2 ↦ 5`,
`3 ↦ 5`, the rows of `Describe` are listed in ascending voter-ID order, but
voters 2 and 3 — whose known acked indexes are equal — receive bars of
lengths 1 and 0: the bar-population loop resets the bar to the zero value on
an index tie instead of copying the predecessor's bar, contradicting the
renderer's documented rule that equal indexes get equal bars. -/
theorem describeRows_equal_idx_unequal_bar :
    describeRows {1, 2, 3}
        (fun id => if id = 1 then some 3 else if id = 2 then some 5 else
          if id = 3 then some 5 else none)
      = [{ id := 1, idx := 3, ok := true, bar := 0 },
         { id := 2, idx := 5, ok := true, bar := 1 },
         { id := 3, idx := 5, ok := true, bar := 0 }]
    ∧ ∃ r ∈ describeRows {1, 2, 3}
        (fun id => if id = 1 then some 3 else if id = 2 then some 5 else
          if id = 3 then some 5 else none),
      ∃ r' ∈ describeRows {1, 2, 3}
        (fun id => if id = 1 then some 3 else if id = 2 then some 5 else
          if id = 3 then some 5 else none),
      r.ok = true ∧ r'.ok = true ∧ r.idx = r'.idx ∧ r.bar ≠ r'.bar := by
  decide

theorem getD_srtOf_pos_ne_maxUint64 (c : MajorityConfig) (l : IndexLookuper)
    (hne : ¬ c.card = 0)
    (hc : ¬ c.card - (c.card / 2 + 1) < Multiset.card (ackedIndexes c l)) :
    ¬ (srtOf c l).getD (c.card - (c.card / 2 + 1)) 0 = maxUint64 := by
  intro heq
  have hk := votesCast_le_card c l
  have hj : c.card - (c.card / 2 + 1) < Multiset.card
      (ackedIndexes c l +
        Multiset.replicate (c.card - Multiset.card (ackedIndexes c l)) 0) := by
    rw [card_padded]
    omega
  have h1 := (le_getD_sortedListOf_iff _ hj maxUint64).1 (le_of_eq heq.symm)
  rw [card_padded, cAbove_add_replicate_zero,
    if_neg (show ¬ maxUint64 = 0 by decide)] at h1
  have h2 := cAbove_le_card (ackedIndexes c l) maxUint64
  omega

/-- C10: on nonempty configs the legacy pair-returning `CommittedIndex`
returns exactly `(Definitely, Definitely == Maybe)` of the CommitRange
version; the two versions diverge only on the empty config, where the legacy
one returns `(0, true)` and the new one `(2^64-1, 2^64-1)`. -/
theorem legacy_refines_commitRange (c : MajorityConfig) (l : IndexLookuper) :
    (¬ c.card = 0 →
      legacyCommittedIndex c l
        = ((MajorityConfig.CommittedIndex c l).Definitely,
            decide ((MajorityConfig.CommittedIndex c l).Definitely
              = (MajorityConfig.CommittedIndex c l).Maybe)))
    ∧ (c.card = 0 →
        legacyCommittedIndex c l = (0, true)
          ∧ MajorityConfig.CommittedIndex c l
              = { Definitely := 2 ^ 64 - 1, Maybe := 2 ^ 64 - 1 }) := by
  constructor
  · intro hne
    simp only [legacyCommittedIndex, MajorityConfig.CommittedIndex, if_neg hne]
    by_cases hc : c.card - (c.card / 2 + 1) < Multiset.card (ackedIndexes c l)
    · rw [if_pos hc, Prod.mk.injEq]
      refine ⟨rfl, ?_⟩
      simp [hc, eq_comm]
    · rw [if_neg hc, Prod.mk.injEq]
      refine ⟨rfl, ?_⟩
      rw [decide_eq_false hc, Bool.false_and,
        decide_eq_false (getD_srtOf_pos_ne_maxUint64 c l hne hc)]
  · intro h0
    constructor
    · simp [legacyCommittedIndex, h0]
    · simp [MajorityConfig.CommittedIndex, h0, maxUint64]

theorem legacy_refines_commitRange_witness :
    legacyCommittedIndex {1, 2} (fun id => if id = 1 then some 4 else none)
      = ((MajorityConfig.CommittedIndex {1, 2}
            fun id => if id = 1 then some 4 else none).Definitely,
          decide ((MajorityConfig.CommittedIndex {1, 2}
              fun id => if id = 1 then some 4 else none).Definitely
            = (MajorityConfig.CommittedIndex {1, 2}
                fun id => if id = 1 then some 4 else none).Maybe)) :=
  (legacy_refines_commitRange {1, 2}
    fun id => if id = 1 then some 4 else none).1 (by decide)

end EtcdQuorum
